import Mathlib

/-!
# terraform-version-detector: a shallow embedding of `main.go`

Go strings are modelled as lists of Unicode code points (`List Char`), the
machine type `int` as `Int` bounded by `maxInt` (64-bit targets), slices as
lists.  Library calls (`strings.*`, `strconv.Atoi`, `regexp`, `sort.Slice`,
the HCL parser, the HTTP client) are modelled by their documented behaviour;
the functions of `main.go` are translated statement by statement.
-/

namespace TerraformVersionDetector

/-! ## Strings -/

/-- A Go string, as its sequence of code points. -/
abbrev GoString := List Char

/-- Go's `strings.HasPrefix(s, prefix)`. -/
def HasPrefix (s pre : GoString) : Bool :=
  pre.isPrefixOf s

/-- Go's `strings.TrimPrefix(s, prefix)`: `s` without the leading `prefix`, or `s`
itself when it does not start with `prefix`. -/
def TrimPrefix (s pre : GoString) : GoString :=
  if HasPrefix s pre then s.drop pre.length else s

/-- Go's `strings.HasSuffix(s, suffix)`. -/
def HasSuffix (s suf : GoString) : Bool :=
  suf.isSuffixOf s

/-- Go's `strings.TrimSuffix(s, suffix)`: `s` without the trailing `suffix`, or `s`
itself when it does not end with `suffix`. -/
def TrimSuffix (s suf : GoString) : GoString :=
  if HasSuffix s suf then s.take (s.length - suf.length) else s

/-- Go's `strings.Count(s, sep)` for a one-character separator. -/
def Count (s : GoString) (sep : Char) : Nat :=
  s.count sep

/-- Go's `strings.IndexByte`/`strings.Index` for a one-character separator: the
position of the first occurrence, `none` for Go's `-1`. -/
def Index : GoString → Char → Option Nat
  | [], _ => none
  | c :: cs, sep => if c = sep then some 0 else (Index cs sep).map (· + 1)

/-- The loop of `strings.genSplit`: at most `n` cuts at the separator, the
rest of the string is the last piece. -/
def genSplitLoop (sep : Char) : Nat → GoString → List GoString
  | 0, s => [s]
  | n + 1, s =>
    match Index s sep with
    | none => [s]
    | some m => s.take m :: genSplitLoop sep n (s.drop (m + 1))

/-- Go's `strings.Split(s, sep)` for a one-character separator (both call sites of
`main.go` pass one: `","` and `"."`): `Count(s, sep) + 1` pieces. -/
def Split (s : GoString) (sep : Char) : List GoString :=
  genSplitLoop sep (Count s sep) s

/-- Go's `unicode.IsSpace`: the code points Go treats as white space. -/
def isSpace (c : Char) : Bool :=
  let n := c.toNat
  (9 ≤ n && n ≤ 13) || n = 0x20 || n = 0x85 || n = 0xA0 || n = 0x1680 ||
  (0x2000 ≤ n && n ≤ 0x200A) || n = 0x2028 || n = 0x2029 || n = 0x202F ||
  n = 0x205F || n = 0x3000

/-- Go's `strings.TrimLeftFunc(s, unicode.IsSpace)`. -/
def TrimLeftSpace (s : GoString) : GoString :=
  s.dropWhile isSpace

/-- Go's `strings.TrimRightFunc(s, unicode.IsSpace)`. -/
def TrimRightSpace (s : GoString) : GoString :=
  (s.reverse.dropWhile isSpace).reverse

/-- Go's `strings.TrimSpace(s)`: leading and trailing white space removed. -/
def TrimSpace (s : GoString) : GoString :=
  TrimRightSpace (TrimLeftSpace s)

/-! ## `strconv.Atoi` -/

/-- Width of Go's `int` (64-bit targets). -/
def intSize : Nat := 64

/-- Largest `int`. -/
def maxInt : Nat := 2 ^ (intSize - 1) - 1

/-- Largest `uint64`. -/
def maxUint64 : Nat := 2 ^ 64 - 1

/-- Value of a decimal digit byte, `none` for any other character
(`ch -= '0'; if ch > 9`). -/
def digitVal (c : Char) : Option Nat :=
  if 48 ≤ c.toNat ∧ c.toNat ≤ 57 then some (c.toNat - 48) else none

/-- Fast path of `strconv.Atoi` (short inputs): `n = n*10 + int(ch)`, a syntax
error (`none`) at the first non-digit. -/
def atoiFast : GoString → Nat → Option Nat
  | [], n => some n
  | c :: cs, n =>
    match digitVal c with
    | none => none
    | some d => atoiFast cs (n * 10 + d)

/-- Outcome of `strconv.ParseUint(s, 10, 64)`. -/
inductive ParseUintResult where
  | value (n : Nat)
  | syntaxError
  | rangeError
  deriving DecidableEq, Repr

/-- The digit loop of `strconv.ParseUint` in base 10 with its two overflow
checks (`n >= cutoff`, and `n1 < n || n1 > maxVal` on the wrapped sum). -/
def parseUintLoop : GoString → Nat → ParseUintResult
  | [], n => .value n
  | c :: cs, n =>
    match digitVal c with
    | none => .syntaxError
    | some d =>
      if n ≥ maxUint64 / 10 + 1 then .rangeError
      else
        let n10 := (n * 10) % 2 ^ 64
        let n1 := (n10 + d) % 2 ^ 64
        if n1 < n10 ∨ n1 > maxUint64 then .rangeError
        else parseUintLoop cs n1

/-- Go's `strconv.Atoi(s)` for unsigned input (the only input `main.go` gives it is
matched by `^\d+\.\d+\.\d+$` first): the returned `int` and whether the error
is nil.  A syntax error returns 0, a range error returns the largest `int`. -/
def Atoi (s : GoString) : Int × Bool :=
  if 0 < s.length ∧ s.length < 19 then
    match atoiFast s 0 with
    | some n => (n, true)
    | none => (0, false)
  else if s.length = 0 then (0, false)
  else
    match parseUintLoop s 0 with
    | .value un => if un ≥ 2 ^ (intSize - 1) then (maxInt, false) else (un, true)
    | .rangeError => (maxInt, false)
    | .syntaxError => (0, false)

/-! ## The regular expression `^\d+\.\d+\.\d+$` -/

open RegularExpression in
/-- The class `\d` of Go's `regexp`: the ten ASCII digits. -/
def digitClass : RegularExpression Char :=
  char '0' + char '1' + char '2' + char '3' + char '4' +
  char '5' + char '6' + char '7' + char '8' + char '9'

/-- The repetition `\d+`. -/
def digits1 : RegularExpression Char :=
  digitClass * digitClass.star

/-- The pattern `\d+\.\d+\.\d+` compiled by `regexp.MustCompile`. -/
def semverRegex : RegularExpression Char :=
  digits1 * RegularExpression.char '.' * digits1 * RegularExpression.char '.' * digits1

/-- Go's `re.MatchString(s)` for a pattern anchored by `^` and `$` (no multi-line
flag, so `$` is the end of the text): the whole text is in the language. -/
def MatchString (re : RegularExpression Char) (s : GoString) : Bool :=
  re.rmatch s

/-! ## Versions and `fetchTerraformReleases` -/

/-- An element of the slice `[][3]int`. -/
structure Version where
  major : Int
  minor : Int
  patch : Int
  deriving DecidableEq, Repr

/-- Indexing `v[k]` of a `[3]int`. -/
def Version.get (v : Version) : Nat → Int
  | 0 => v.major
  | 1 => v.minor
  | _ => v.patch

/-- The loop `for k := 0; k < 3; k++` of the comparison closure, with `n`
iterations left from index `k`. -/
def lessLoop (vi vj : Version) : Nat → Nat → Bool
  | 0, _ => false
  | n + 1, k =>
    if vi.get k ≠ vj.get k then decide (vi.get k > vj.get k)
    else lessLoop vi vj n (k + 1)

/-- The closure given to `sort.Slice`, on the two elements it compares. -/
def less (vi vj : Version) : Bool :=
  lessLoop vi vj 3 0

/-- Lines 96-97: the version text of a link, `href` without the leading
`/terraform/` and without one trailing `/`. -/
def versionText (href : GoString) : GoString :=
  TrimSuffix (TrimPrefix href "/terraform/".toList) "/".toList

/-- Lines 99-104: a version text that matches the pattern is split at the dots
and each part converted by `Atoi`, its error dropped; any other text yields
nothing. -/
def parseSemver (version : GoString) : Option Version :=
  if MatchString semverRegex version then
    let parts := Split version '.'
    let major := (Atoi (parts.getD 0 [])).1
    let minor := (Atoi (parts.getD 1 [])).1
    let patch := (Atoi (parts.getD 2 [])).1
    some ⟨major, minor, patch⟩
  else none

/-- The callback of `doc.Find("a").Each`: `href` is the attribute of the
anchor (`none` when absent), `versions` the slice collected so far. -/
def eachAnchor (versions : List Version) (href : Option GoString) : List Version :=
  match href with
  | none => versions
  | some href =>
    if HasPrefix href "/terraform/".toList then
      let version := versionText href
      if version ≠ [] ∧ version ≠ "index.json".toList then
        match parseSemver version with
        | some v => versions ++ [v]
        | none => versions
      else versions
    else versions

/-- The slice `versions` after the `Each` loop over the anchors of the page,
in document order. -/
def collectVersions (anchors : List (Option GoString)) : List Version :=
  anchors.foldl eachAnchor []

/-- The inner loop of Go's `insertionSortLessFunc`: the element `x` at index
`j` is swapped leftwards while `less(data[j], data[j-1])`; the sorted prefix is
held nearest element first. -/
def sinkLeft {α : Type} (less : α → α → Bool) (x : α) : List α → List α
  | [] => [x]
  | y :: ys => if less x y then y :: sinkLeft less x ys else x :: y :: ys

/-- Go's `insertionSortLessFunc`, the algorithm `sort.Slice` runs on slices of
at most 12 elements. -/
def insertionSortLess {α : Type} (less : α → α → Bool) (data : List α) : List α :=
  (data.foldl (fun sorted x => sinkLeft less x sorted) []).reverse

/-- What `sort.Slice` requires of the comparison: a strict weak ordering. -/
structure StrictWeakOrder {α : Type} (less : α → α → Bool) : Prop where
  irrefl : ∀ a, less a a = false
  trans : ∀ a b c, less a b = true → less b c = true → less a c = true
  incomp_trans : ∀ a b c, less a b = false → less b a = false →
    less b c = false → less c b = false → less a c = false ∧ less c a = false

/-- The contract of `sort.Slice` (which is not stable): for a strict weak
ordering the result is a rearrangement of the slice in which no element is
less than the one before it. -/
def SortsSlice (sortSlice : (Version → Version → Bool) → List Version → List Version) : Prop :=
  ∀ (lt : Version → Version → Bool) (data : List Version), StrictWeakOrder lt →
    (sortSlice lt data).Perm data ∧
    List.Chain' (fun a b => lt b a = false) (sortSlice lt data)

/-- What `http.Get` and `goquery.NewDocumentFromReader` hand to the function:
the status code and, when the body parses as HTML, the `href` attribute of
every `a` element in document order. -/
structure Response where
  statusCode : Nat
  document : Option (List (Option GoString))

/-- The errors `fetchTerraformReleases` returns. -/
inductive FetchError where
  | fetchFailed
  | unexpectedStatus (code : Nat)
  | htmlParseFailed
  deriving DecidableEq, Repr

/-- The function `fetchTerraformReleases`, given the implementation of `sort.Slice` and the
outcome of `http.Get` (`none` when the request fails). -/
def fetchTerraformReleases
    (sortSlice : (Version → Version → Bool) → List Version → List Version)
    (get : Option Response) : Except FetchError (List Version) :=
  match get with
  | none => .error .fetchFailed
  | some resp =>
    if resp.statusCode ≠ 200 then .error (.unexpectedStatus resp.statusCode)
    else
      match resp.document with
      | none => .error .htmlParseFailed
      | some anchors =>
        let versions := collectVersions anchors
        .ok (sortSlice less versions)

/-! ## The configuration file and `main` -/

/-- A `cty.Value` as the HCL parser puts it into a literal. -/
inductive CtyValue where
  | string (s : GoString)
  | number (n : Int)
  | bool (b : Bool)
  | null

/-- An `hclsyntax.Expression`: the two node types `extractStringFromExpr` looks
at, and every other node type under its Go type name. -/
inductive Expression where
  | TemplateExpr (parts : List Expression)
  | LiteralValueExpr (val : CtyValue)
  | other (typeName : GoString)

/-- The error of `extractStringFromExpr`. -/
inductive ExtractError where
  | unableToExtract

/-- The function `extractStringFromExpr`: the string of a template with one
literal string part, or of a literal string value; an error for any other
expression. -/
def extractStringFromExpr (expr : Expression) : Except ExtractError GoString :=
  match expr with
  | .TemplateExpr [.LiteralValueExpr (.string s)] => .ok s
  | .LiteralValueExpr (.string s) => .ok s
  | _ => .error .unableToExtract

/-- An `hclsyntax.Block`: its type, its labels and the attributes of its body
(a Go map, here as the list of its entries). -/
structure Block where
  type : GoString
  labels : List GoString
  attributes : List (GoString × Expression)

/-- The `hcl.Body` of a parsed file: a native-syntax body with its blocks in
source order, or a body of another implementation. -/
inductive HclBody where
  | syntaxBody (blocks : List Block)
  | otherBody

/-- The result of `parser.ParseHCLFile`: diagnostics with errors, or a file. -/
inductive ParseHCLFileResult where
  | diagErrors
  | file (body : HclBody)

/-- The struct `TerraformConfig`. -/
structure TerraformConfig where
  RequiredVersion : GoString := []
  deriving DecidableEq, Repr

/-- The errors `parseTerraformFile` returns. -/
inductive ParseError where
  | hclParseFailed
  | unexpectedBodyType
  deriving DecidableEq, Repr

/-- The loop `for _, block := range body.Blocks` of `parseTerraformFile`, with
the final `return &TerraformConfig{}, nil`. -/
def scanBlocks : List Block → TerraformConfig
  | [] => {}
  | block :: rest =>
    if block.type = "terraform".toList ∧ block.labels.length = 0 then
      match block.attributes.lookup "required_version".toList with
      | some expr =>
        match extractStringFromExpr expr with
        | .ok version => { RequiredVersion := version }
        | .error _ => scanBlocks rest
      | none => scanBlocks rest
    else scanBlocks rest

/-- The function `parseTerraformFile`, given what `ParseHCLFile` returns for each name. -/
def parseTerraformFile (fs : GoString → ParseHCLFileResult) (filename : GoString) :
    Except ParseError TerraformConfig :=
  match fs filename with
  | .diagErrors => .error .hclParseFailed
  | .file (.otherBody) => .error .unexpectedBodyType
  | .file (.syntaxBody blocks) => .ok (scanBlocks blocks)

/-- The first loop of `main`: the lines printed and the value of `config`
when the loop ends (`none` for nil). -/
def selectConfig (fs : GoString → ParseHCLFileResult) :
    List GoString → List GoString × Option TerraformConfig
  | [] => ([], none)
  | filename :: rest =>
    match parseTerraformFile fs filename with
    | .error _ => selectConfig fs rest
    | .ok parsedConfig =>
      if parsedConfig.RequiredVersion ≠ [] then
        (["Found required_version specification in ".toList ++ filename], some parsedConfig)
      else selectConfig fs rest

/-- The lines the second loop of `main` prints for a constraint. -/
def printSegments (requiredVersion : GoString) : List GoString :=
  (Split requiredVersion ',').map TrimSpace

/-- What a run of `main` does: `log.Fatal`, or the lines printed. -/
inductive MainResult where
  | fatal
  | printed (lines : List GoString)
  deriving DecidableEq, Repr

/-- The function `main`, given the outcome of `filepath.Glob("*.tf")` (`none` for an error)
and what `ParseHCLFile` returns for each name. -/
def main (glob : Option (List GoString)) (fs : GoString → ParseHCLFileResult) : MainResult :=
  match glob with
  | none => .fatal
  | some files =>
    match selectConfig fs files with
    | (out, none) => .printed (out ++ ["No required_version specification found.".toList])
    | (out, some config) =>
      if config.RequiredVersion = [] then
        .printed (out ++ ["No required_version specification found.".toList])
      else .printed (out ++ printSegments config.RequiredVersion)

/-! ## Vocabulary of the properties -/

/-- Strictly greater, comparing first by major, then by minor, then by patch. -/
def lexGt (a b : Version) : Prop :=
  a.major > b.major ∨ (a.major = b.major ∧
    (a.minor > b.minor ∨ (a.minor = b.minor ∧ a.patch > b.patch)))

/-- Greater than or equal, comparing first by major, then by minor, then by
patch. -/
def lexGe (a b : Version) : Prop :=
  a.major > b.major ∨ (a.major = b.major ∧
    (a.minor > b.minor ∨ (a.minor = b.minor ∧ a.patch ≥ b.patch)))

/-- A page answered with status 200 whose links are the given `href`s. -/
def okPage (hrefs : List GoString) : Option Response :=
  some { statusCode := 200, document := some (hrefs.map some) }

/-- The release set of the specification's example, as links of a page. -/
def exampleReleases : List GoString :=
  ["/terraform/1.0.0/".toList, "/terraform/1.2.0/".toList, "/terraform/1.2.9/".toList,
   "/terraform/1.3.0/".toList, "/terraform/2.0.0/".toList]

/-- A configuration file with `required_version = ">= 1.2.0, < 2.0.0"` in its
`terraform` block. -/
def exampleFile : ParseHCLFileResult :=
  .file (.syntaxBody [
    { type := "terraform".toList,
      labels := [],
      attributes := [("required_version".toList,
        Expression.TemplateExpr
          [Expression.LiteralValueExpr (CtyValue.string ">= 1.2.0, < 2.0.0".toList)])] }])

/-- The decimal digits. -/
def decimalDigits : List Char :=
  ['0', '1', '2', '3', '4', '5', '6', '7', '8', '9']

/-- A non-empty run of decimal digits. -/
def IsDigitRun (r : GoString) : Prop :=
  r ≠ [] ∧ ∀ c ∈ r, c ∈ decimalDigits

/-- A text made of exactly three non-empty runs of decimal digits separated by
single dots. -/
def IsSemverText (v : GoString) : Prop :=
  ∃ a b c, IsDigitRun a ∧ IsDigitRun b ∧ IsDigitRun c ∧ v = a ++ '.' :: (b ++ '.' :: c)

/-- A file the first loop of `main` passes over: it fails to parse, or its
config has an empty `RequiredVersion`. -/
def Skipped (fs : GoString → ParseHCLFileResult) (filename : GoString) : Prop :=
  match parseTerraformFile fs filename with
  | .error _ => True
  | .ok config => config.RequiredVersion = []

/-- A plain string literal with value `s`: a literal string value, or a
template with exactly one part, that part a literal string value. -/
inductive IsPlainStringLiteral : Expression → GoString → Prop where
  | literal (s : GoString) : IsPlainStringLiteral (.LiteralValueExpr (.string s)) s
  | template (s : GoString) :
    IsPlainStringLiteral (.TemplateExpr [.LiteralValueExpr (.string s)]) s

/-- A block that declares the constraint `v`: its type is `terraform`, it has
no labels, and its `required_version` attribute is a plain string literal with
value `v`. -/
def DeclaresVersion (b : Block) (v : GoString) : Prop :=
  b.type = "terraform".toList ∧ b.labels = [] ∧
  ∃ expr, b.attributes.lookup "required_version".toList = some expr ∧
    IsPlainStringLiteral expr v

/-- The line `main` prints when it finds a constraint in a file. -/
def foundLine (filename : GoString) : GoString :=
  "Found required_version specification in ".toList ++ filename

/-- The line `main` prints when it finds no constraint. -/
def notFoundLine : GoString :=
  "No required_version specification found.".toList

/-- A directory in which `a.tf` does not parse and every other file is
`exampleFile`. -/
def exampleFs (filename : GoString) : ParseHCLFileResult :=
  if filename = "a.tf".toList then .diagErrors else exampleFile

/-- A `terraform` block with a label and a `required_version`. -/
def labelledBlock : Block :=
  { type := "terraform".toList,
    labels := ["x".toList],
    attributes := [("required_version".toList,
      Expression.LiteralValueExpr (CtyValue.string "1.0.0".toList))] }

/-- A `terraform` block whose `required_version` is a variable reference. -/
def referenceBlock : Block :=
  { type := "terraform".toList,
    labels := [],
    attributes := [("required_version".toList,
      Expression.other "*hclsyntax.ScopeTraversalExpr".toList)] }

/-- A `terraform` block with `required_version = "~> 1.5"`. -/
def literalBlock : Block :=
  { type := "terraform".toList,
    labels := [],
    attributes := [("required_version".toList,
      Expression.TemplateExpr [Expression.LiteralValueExpr (CtyValue.string "~> 1.5".toList)])] }

/-- The number a run of decimal digits denotes. -/
def decimalValue (r : GoString) : Nat :=
  r.foldl (fun n c => n * 10 + (c.toNat - 48)) 0

/-- The numeric components of a dotted text: the numbers its dot-separated
pieces denote. -/
def numericComponents (text : GoString) : List Nat :=
  (Split text '.').map decimalValue

/-- Modelled from the spec: the decimal rendering of a number, used by the
formatting of a Version, which `main.go` does not contain.  The digits of `n`
are produced from the least significant one, in front of `acc`. -/
def formatDigits : Nat → Nat → GoString → GoString
  | 0, _, acc => acc
  | fuel + 1, n, acc =>
    if n < 10 then Nat.digitChar n :: acc
    else formatDigits fuel (n / 10) (Nat.digitChar (n % 10) :: acc)

/-- Modelled from the spec: a natural number as a decimal numeral (formatting
is not part of `main.go`). -/
def formatNat (n : Nat) : GoString :=
  formatDigits (n + 1) n []

/-- Modelled from the spec: an `int` as a decimal numeral (formatting is not
part of `main.go`). -/
def formatInt (n : Int) : GoString :=
  if n < 0 then '-' :: formatNat n.natAbs else formatNat n.toNat

/-- Modelled from the spec: "formatting the parsed Version", which `main.go`
does not contain: the three components as decimal numbers joined by dots. -/
def formatVersion (v : Version) : GoString :=
  formatInt v.major ++ '.' :: (formatInt v.minor ++ '.' :: formatInt v.patch)

/-- The value a digit loop reaches from `n` after reading the digits `r`. -/
def accumulate (n : Nat) (r : GoString) : Nat :=
  r.foldl (fun n c => n * 10 + (c.toNat - 48)) n

/-! ## Lemmas -/

theorem less_iff_lexGt (a b : Version) : less a b = true ↔ lexGt a b := by
  simp only [less, lessLoop, Version.get, lexGt]
  split_ifs <;> simp <;> omega

theorem not_less_iff_lexGe (a b : Version) : less b a = false ↔ lexGe a b := by
  simp only [less, lessLoop, Version.get, lexGe]
  split_ifs <;> simp <;> omega

theorem less_strictWeakOrder : StrictWeakOrder less := by
  refine ⟨?_, ?_, ?_⟩
  · intro a
    simp [less, lessLoop]
  · intro a b c
    simp only [less_iff_lexGt, lexGt]
    omega
  · intro a b c
    simp only [not_less_iff_lexGe, lexGe]
    omega

theorem lexGe_antisymm (a b : Version) (h1 : lexGe a b) (h2 : lexGe b a) : a = b := by
  cases a; cases b
  simp only [lexGe] at h1 h2
  simp only [Version.mk.injEq]
  omega

theorem lexGe_trans (a b c : Version) (h1 : lexGe a b) (h2 : lexGe b c) : lexGe a c := by
  simp only [lexGe] at *
  omega

theorem lexGt_of_lexGe_of_ne (a b : Version) (h : lexGe a b) (hne : a ≠ b) : lexGt a b := by
  cases a; cases b
  simp only [lexGe] at h
  simp only [ne_eq, Version.mk.injEq] at hne
  simp only [lexGt]
  omega

theorem sinkLeft_perm {α : Type} (lt : α → α → Bool) (x : α) (l : List α) :
    (sinkLeft lt x l).Perm (x :: l) := by
  induction l with
  | nil => simp [sinkLeft]
  | cons y ys ih =>
    simp only [sinkLeft]
    split_ifs
    · exact (List.Perm.cons y ih).trans (List.Perm.swap x y ys)
    · exact List.Perm.refl _

theorem sinkLeft_chain {α : Type} (lt : α → α → Bool)
    (hasymm : ∀ a b, lt a b = true → lt b a = false) (x : α) (l : List α)
    (hl : List.Chain' (fun a b => lt a b = false) l) :
    List.Chain' (fun a b => lt a b = false) (sinkLeft lt x l) := by
  induction l with
  | nil => simp [sinkLeft]
  | cons y ys ih =>
    simp only [sinkLeft]
    split_ifs with hxy
    · have ih2 := ih hl.tail
      cases ys with
      | nil =>
        simp only [sinkLeft, List.chain'_cons, List.chain'_singleton, and_true]
        exact hasymm x y hxy
      | cons z zs =>
        simp only [sinkLeft] at ih2 ⊢
        split_ifs at ih2 ⊢ with hxz
        · exact List.Chain'.cons (List.chain'_cons.mp hl).1 ih2
        · exact List.Chain'.cons (hasymm x y hxy) ih2
    · exact List.Chain'.cons (by simpa using hxy) hl

theorem insertionSortLess_perm {α : Type} (lt : α → α → Bool) (data : List α) :
    (insertionSortLess lt data).Perm data := by
  unfold insertionSortLess
  suffices h : ∀ (acc : List α), (data.foldl (fun sorted x => sinkLeft lt x sorted) acc).Perm
      (data.reverse ++ acc) by
    have := h []
    simp only [List.append_nil] at this
    exact (List.reverse_perm _).trans (this.trans (List.reverse_perm _))
  induction data with
  | nil => intro acc; simp
  | cons x xs ih =>
    intro acc
    simp only [List.foldl_cons, List.reverse_cons, List.append_assoc, List.singleton_append]
    exact (ih _).trans (List.Perm.append_left _ (sinkLeft_perm lt x acc))

theorem insertionSortLess_chain {α : Type} (lt : α → α → Bool)
    (hasymm : ∀ a b, lt a b = true → lt b a = false) (data : List α) :
    List.Chain' (fun a b => lt b a = false) (insertionSortLess lt data) := by
  unfold insertionSortLess
  rw [List.chain'_reverse]
  suffices h : ∀ (acc : List α), List.Chain' (fun a b => lt a b = false) acc →
      List.Chain' (fun a b => lt a b = false)
        (data.foldl (fun sorted x => sinkLeft lt x sorted) acc) by
    exact h [] List.chain'_nil
  induction data with
  | nil => intro acc h; simpa using h
  | cons x xs ih =>
    intro acc h
    exact ih _ (sinkLeft_chain lt hasymm x acc h)

theorem StrictWeakOrder.asymm {α : Type} {lt : α → α → Bool} (h : StrictWeakOrder lt)
    (a b : α) (hab : lt a b = true) : lt b a = false := by
  by_contra hba
  have hba2 : lt b a = true := by simpa using hba
  have := h.trans a b a hab hba2
  rw [h.irrefl a] at this
  exact Bool.noConfusion this

/-- Go's insertion sort meets the contract of `sort.Slice`. -/
theorem insertionSortLess_sortsSlice : SortsSlice insertionSortLess := by
  intro lt data hlt
  exact ⟨insertionSortLess_perm lt data, insertionSortLess_chain lt hlt.asymm data⟩

theorem sortSlice_less_perm {sortSlice : (Version → Version → Bool) → List Version → List Version}
    (h : SortsSlice sortSlice) (data : List Version) : (sortSlice less data).Perm data :=
  (h less data less_strictWeakOrder).1

theorem sortSlice_less_chain {sortSlice : (Version → Version → Bool) → List Version → List Version}
    (h : SortsSlice sortSlice) (data : List Version) :
    List.Chain' lexGe (sortSlice less data) :=
  (h less data less_strictWeakOrder).2.imp (fun {a b} hab => (not_less_iff_lexGe a b).mp hab)

theorem descending_pairwise {l : List Version} (h : List.Chain' lexGe l) :
    List.Pairwise lexGe l :=
  haveI : IsTrans Version lexGe := ⟨lexGe_trans⟩
  List.chain'_iff_pairwise.mp h

/-- Two descending arrangements of the same versions are the same list. -/
theorem descending_unique {l₁ l₂ : List Version} (hp : l₁.Perm l₂)
    (h₁ : List.Chain' lexGe l₁) (h₂ : List.Chain' lexGe l₂) : l₁ = l₂ :=
  haveI : IsAntisymm Version lexGe := ⟨lexGe_antisymm⟩
  List.eq_of_perm_of_sorted hp (descending_pairwise h₁) (descending_pairwise h₂)

theorem eachAnchor_append (versions : List Version) (href : Option GoString) :
    eachAnchor versions href = versions ++ eachAnchor [] href := by
  unfold eachAnchor
  cases href with
  | none => simp
  | some h =>
    simp only
    split_ifs
    · cases parseSemver (versionText h) <;> simp
    · simp
    · simp

theorem foldl_eachAnchor (anchors : List (Option GoString)) (acc : List Version) :
    anchors.foldl eachAnchor acc = acc ++ anchors.flatMap (eachAnchor []) := by
  induction anchors generalizing acc with
  | nil => simp
  | cons a as ih =>
    rw [List.foldl_cons, ih, eachAnchor_append acc a, List.flatMap_cons, List.append_assoc]

theorem collectVersions_eq (anchors : List (Option GoString)) :
    collectVersions anchors = anchors.flatMap (eachAnchor []) := by
  unfold collectVersions
  rw [foldl_eachAnchor, List.nil_append]

theorem collectVersions_perm {a₁ a₂ : List (Option GoString)} (h : a₁.Perm a₂) :
    (collectVersions a₁).Perm (collectVersions a₂) := by
  rw [collectVersions_eq, collectVersions_eq]
  exact h.flatMap_right _

theorem fetch_ok (sortSlice : (Version → Version → Bool) → List Version → List Version)
    (anchors : List (Option GoString)) :
    fetchTerraformReleases sortSlice (some { statusCode := 200, document := some anchors })
      = .ok (sortSlice less (collectVersions anchors)) := by
  simp [fetchTerraformReleases]

theorem digitClass_rmatch_iff (x : GoString) :
    digitClass.rmatch x = true ↔ ∃ c ∈ decimalDigits, x = [c] := by
  simp only [digitClass, RegularExpression.add_rmatch_iff, RegularExpression.char_rmatch_iff,
    decimalDigits, List.mem_cons, List.mem_singleton, List.not_mem_nil, or_false]
  constructor
  · intro h
    rcases h with ((((((((h | h) | h) | h) | h) | h) | h) | h) | h) | h <;>
      exact ⟨_, by simp, h⟩
  · rintro ⟨c, hc, rfl⟩
    rcases hc with h | h | h | h | h | h | h | h | h | h <;> subst h <;> simp

theorem digitStar_rmatch_iff (x : GoString) :
    digitClass.star.rmatch x = true ↔ ∀ c ∈ x, c ∈ decimalDigits := by
  rw [RegularExpression.star_rmatch_iff]
  constructor
  · rintro ⟨S, rfl, hS⟩ c hc
    rw [List.mem_flatten] at hc
    obtain ⟨t, ht, hct⟩ := hc
    obtain ⟨d, hd, rfl⟩ := (digitClass_rmatch_iff t).mp (hS t ht).2
    rw [List.mem_singleton] at hct
    exact hct ▸ hd
  · intro h
    refine ⟨x.map (fun c => [c]), ?_, ?_⟩
    · induction x with
      | nil => rfl
      | cons a as ih =>
        simp only [List.map_cons, List.flatten_cons, List.singleton_append, List.cons.injEq,
          true_and]
        exact ih (fun c hc => h c (List.mem_cons_of_mem _ hc))
    · intro t ht
      rw [List.mem_map] at ht
      obtain ⟨c, hc, rfl⟩ := ht
      exact ⟨by simp, (digitClass_rmatch_iff _).mpr ⟨c, h c hc, rfl⟩⟩

theorem digits1_rmatch_iff (x : GoString) : digits1.rmatch x = true ↔ IsDigitRun x := by
  unfold digits1 IsDigitRun
  rw [RegularExpression.mul_rmatch_iff]
  constructor
  · rintro ⟨t, u, rfl, ht, hu⟩
    obtain ⟨c, hc, rfl⟩ := (digitClass_rmatch_iff t).mp ht
    refine ⟨by simp, ?_⟩
    intro d hd
    rcases List.mem_append.mp hd with h | h
    · rw [List.mem_singleton] at h
      exact h ▸ hc
    · exact (digitStar_rmatch_iff u).mp hu d h
  · rintro ⟨hne, h⟩
    cases x with
    | nil => exact absurd rfl hne
    | cons a as =>
      refine ⟨[a], as, rfl, (digitClass_rmatch_iff _).mpr ⟨a, h a (List.mem_cons_self _ _), rfl⟩,
        (digitStar_rmatch_iff as).mpr (fun c hc => h c (List.mem_cons_of_mem _ hc))⟩

theorem MatchString_semverRegex_iff (v : GoString) :
    MatchString semverRegex v = true ↔ IsSemverText v := by
  unfold MatchString semverRegex IsSemverText
  simp only [RegularExpression.mul_rmatch_iff, RegularExpression.char_rmatch_iff,
    digits1_rmatch_iff]
  constructor
  · rintro ⟨t, c, rfl, ⟨t2, d2, rfl, ⟨t3, b, rfl, ⟨a, d1, rfl, ha, rfl⟩, hb⟩, rfl⟩, hc⟩
    exact ⟨a, b, c, ha, hb, hc, by simp⟩
  · rintro ⟨a, b, c, ha, hb, hc, rfl⟩
    exact ⟨a ++ '.' :: (b ++ ['.']), c, by simp,
      ⟨a ++ '.' :: b, ['.'], by simp, ⟨a ++ ['.'], b, by simp, ⟨a, ['.'], rfl, ha, rfl⟩, hb⟩, rfl⟩,
      hc⟩

theorem parseSemver_isSome_iff (v : GoString) : (parseSemver v).isSome = true ↔ IsSemverText v := by
  rw [← MatchString_semverRegex_iff]
  unfold parseSemver
  split_ifs with h <;> simp [h]

theorem parseSemver_eq_none_iff (v : GoString) : parseSemver v = none ↔ ¬ IsSemverText v := by
  rw [← parseSemver_isSome_iff]
  cases parseSemver v <;> simp

theorem IsSemverText.starts_with_digit {v : GoString} (h : IsSemverText v) :
    ∃ c rest, v = c :: rest ∧ c ∈ decimalDigits := by
  obtain ⟨a, b, c, ⟨hne, ha⟩, -, -, rfl⟩ := h
  cases a with
  | nil => exact absurd rfl hne
  | cons x xs => exact ⟨x, _, rfl, ha x (List.mem_cons_self _ _)⟩

theorem IsSemverText.ne_nil {v : GoString} (h : IsSemverText v) : v ≠ [] := by
  obtain ⟨c, rest, rfl, -⟩ := h.starts_with_digit
  simp

theorem IsSemverText.ne_index_json {v : GoString} (h : IsSemverText v) :
    v ≠ "index.json".toList := by
  obtain ⟨c, rest, hv, hc⟩ := h.starts_with_digit
  intro heq
  rw [heq] at hv
  have : c = 'i' := by
    have := (List.cons.inj hv).1
    exact this.symm
  subst this
  revert hc
  decide

theorem eachAnchor_link (versions : List Version) (href : GoString)
    (hlink : HasPrefix href "/terraform/".toList = true) :
    eachAnchor versions (some href)
      = match parseSemver (versionText href) with
        | some v => versions ++ [v]
        | none => versions := by
  unfold eachAnchor
  simp only [hlink, if_true]
  split_ifs with h
  · rfl
  · have hnot : ¬ IsSemverText (versionText href) := by
      intro hs
      exact h ⟨hs.ne_nil, hs.ne_index_json⟩
    rw [(parseSemver_eq_none_iff _).mpr hnot]

theorem Index_eq_none_iff (s : GoString) (sep : Char) : Index s sep = none ↔ sep ∉ s := by
  induction s with
  | nil => simp [Index]
  | cons c cs ih =>
    simp only [Index, List.mem_cons, not_or]
    split_ifs with h
    · simp [h]
    · simp only [Option.map_eq_none', ih]
      exact ⟨fun hm => ⟨fun heq => h heq.symm, hm⟩, fun hm => hm.2⟩

theorem Index_eq_some (s : GoString) (sep : Char) (m : Nat) (h : Index s sep = some m) :
    sep ∉ s.take m ∧ s = s.take m ++ sep :: s.drop (m + 1) := by
  induction s generalizing m with
  | nil => simp [Index] at h
  | cons c cs ih =>
    simp only [Index] at h
    split_ifs at h with hc
    · cases h
      simp [hc]
    · cases hi : Index cs sep with
      | none => simp [hi] at h
      | some k =>
        simp only [hi, Option.map_some', Option.some.injEq] at h
        subst h
        obtain ⟨h1, h2⟩ := ih k hi
        refine ⟨?_, ?_⟩
        · simp only [List.take_succ_cons, List.mem_cons, not_or]
          exact ⟨fun heq => hc heq.symm, h1⟩
        · simp only [List.take_succ_cons, List.drop_succ_cons, List.cons_append, List.cons.injEq,
            true_and]
          exact h2

theorem Count_append_sep (a rest : GoString) (sep : Char) (ha : sep ∉ a) :
    Count (a ++ sep :: rest) sep = Count rest sep + 1 := by
  simp [Count, List.count_eq_zero_of_not_mem ha]

theorem intercalate_singleton (sep a : GoString) : List.intercalate sep [a] = a := by
  simp [List.intercalate, List.intersperse]

theorem intercalate_cons_cons (sep a b : GoString) (l : List GoString) :
    List.intercalate sep (a :: b :: l) = a ++ sep ++ List.intercalate sep (b :: l) := by
  simp [List.intercalate, List.intersperse]

/-- The pieces `genSplitLoop` returns with enough cuts allowed: joined by the
separator they give the string back, none contains the separator, and there is
one more piece than separators. -/
theorem genSplitLoop_spec (sep : Char) (n : Nat) (s : GoString) (hn : Count s sep ≤ n) :
    List.intercalate [sep] (genSplitLoop sep n s) = s ∧
    (∀ p ∈ genSplitLoop sep n s, sep ∉ p) ∧
    (genSplitLoop sep n s).length = Count s sep + 1 ∧
    genSplitLoop sep n s ≠ [] := by
  induction n generalizing s with
  | zero =>
    have h0 : sep ∉ s := by
      have : List.count sep s = 0 := Nat.le_zero.mp hn
      exact List.count_eq_zero.mp this
    simp only [genSplitLoop, intercalate_singleton, List.mem_singleton, forall_eq, h0,
      not_false_eq_true, List.length_singleton, true_and, ne_eq, List.cons_ne_self,
      and_true]
    simp [Count, List.count_eq_zero_of_not_mem h0]
  | succ n ih =>
    simp only [genSplitLoop]
    cases hi : Index s sep with
    | none =>
      have h0 : sep ∉ s := (Index_eq_none_iff s sep).mp hi
      simp only [intercalate_singleton, List.mem_singleton, forall_eq, h0, not_false_eq_true,
        List.length_singleton, true_and, ne_eq, List.cons_ne_self, and_true]
      simp [Count, List.count_eq_zero_of_not_mem h0]
    | some m =>
      obtain ⟨h1, h2⟩ := Index_eq_some s sep m hi
      have hc : Count s sep = Count (s.drop (m + 1)) sep + 1 := by
        conv_lhs => rw [h2]
        exact Count_append_sep _ _ _ h1
      obtain ⟨i1, i2, i3, i4⟩ := ih (s.drop (m + 1)) (by omega)
      simp only
      refine ⟨?_, ?_, ?_, by simp⟩
      · obtain ⟨q, qs, hq⟩ := List.exists_cons_of_ne_nil i4
        rw [hq, intercalate_cons_cons, ← hq, i1]
        simpa using h2.symm
      · intro p hp
        rcases List.mem_cons.mp hp with h | h
        · exact h ▸ h1
        · exact i2 p h
      · simp [i3, hc]

theorem Split_spec (s : GoString) (sep : Char) :
    List.intercalate [sep] (Split s sep) = s ∧
    (∀ p ∈ Split s sep, sep ∉ p) ∧
    (Split s sep).length = Count s sep + 1 ∧
    Split s sep ≠ [] :=
  genSplitLoop_spec sep (Count s sep) s (Nat.le_refl _)

theorem append_sep_inj {a b x y : GoString} {sep : Char} (ha : sep ∉ a) (hb : sep ∉ b)
    (h : a ++ sep :: x = b ++ sep :: y) : a = b ∧ x = y := by
  induction a generalizing b with
  | nil =>
    cases b with
    | nil => simpa using h
    | cons c cs =>
      simp only [List.nil_append, List.cons_append, List.cons.injEq] at h
      exact absurd (h.1 ▸ List.mem_cons_self _ _) hb
  | cons c cs ih =>
    cases b with
    | nil =>
      simp only [List.nil_append, List.cons_append, List.cons.injEq] at h
      exact absurd (h.1 ▸ List.mem_cons_self _ _) ha
    | cons d ds =>
      simp only [List.cons_append, List.cons.injEq] at h
      obtain ⟨r1, r2⟩ := ih (fun hm => ha (List.mem_cons_of_mem _ hm))
        (fun hm => hb (List.mem_cons_of_mem _ hm)) h.2
      exact ⟨by rw [h.1, r1], r2⟩

/-- A string has only one decomposition into separator-free pieces. -/
theorem pieces_unique (sep : Char) (ps qs : List GoString) (hps : ps ≠ []) (hqs : qs ≠ [])
    (hp : ∀ p ∈ ps, sep ∉ p) (hq : ∀ q ∈ qs, sep ∉ q)
    (h : List.intercalate [sep] ps = List.intercalate [sep] qs) : ps = qs := by
  induction ps generalizing qs with
  | nil => exact absurd rfl hps
  | cons a as ih =>
    cases qs with
    | nil => exact absurd rfl hqs
    | cons b bs =>
      have ha := hp a (List.mem_cons_self _ _)
      have hb := hq b (List.mem_cons_self _ _)
      cases as with
      | nil =>
        cases bs with
        | nil => simpa [intercalate_singleton] using h
        | cons b2 bs =>
          rw [intercalate_singleton, intercalate_cons_cons] at h
          have : sep ∈ a := by rw [h]; simp
          exact absurd this ha
      | cons a2 as =>
        cases bs with
        | nil =>
          rw [intercalate_singleton, intercalate_cons_cons] at h
          have : sep ∈ b := by rw [← h]; simp
          exact absurd this hb
        | cons b2 bs =>
          rw [intercalate_cons_cons, intercalate_cons_cons] at h
          simp only [List.append_assoc, List.singleton_append] at h
          obtain ⟨r1, r2⟩ := append_sep_inj ha hb h
          rw [r1, ih (b2 :: bs) (by simp) (by simp)
            (fun p hp2 => hp p (List.mem_cons_of_mem _ hp2))
            (fun q hq2 => hq q (List.mem_cons_of_mem _ hq2)) r2]

theorem Split_intercalate (sep : Char) (ps : List GoString) (hps : ps ≠ [])
    (hp : ∀ p ∈ ps, sep ∉ p) : Split (List.intercalate [sep] ps) sep = ps := by
  obtain ⟨h1, h2, -, h4⟩ := Split_spec (List.intercalate [sep] ps) sep
  exact pieces_unique sep _ _ h4 hps h2 hp h1
theorem TrimSpace_eq (p : GoString) :
    TrimSpace p = (p.dropWhile isSpace).rdropWhile isSpace := rfl

theorem mem_takeWhile_isSpace {p : GoString} {c : Char} (h : c ∈ p.takeWhile isSpace) :
    isSpace c = true :=
  (List.mem_takeWhile_imp h)

/-- Trimming removes a run of white space at each end and leaves a string
that neither begins nor ends with white space. -/
theorem TrimSpace_spec (p : GoString) :
    (∃ pre post, (∀ c ∈ pre, isSpace c = true) ∧ (∀ c ∈ post, isSpace c = true) ∧
      p = pre ++ TrimSpace p ++ post) ∧
    (∀ c rest, TrimSpace p = c :: rest → isSpace c = false) ∧
    (∀ init c, TrimSpace p = init ++ [c] → isSpace c = false) := by
  refine ⟨⟨p.takeWhile isSpace, (p.dropWhile isSpace).rtakeWhile isSpace,
    fun c hc => mem_takeWhile_isSpace hc, fun c hc => List.mem_rtakeWhile_imp hc, ?_⟩, ?_, ?_⟩
  · have h1 : (p.dropWhile isSpace).rdropWhile isSpace ++ (p.dropWhile isSpace).rtakeWhile isSpace
        = p.dropWhile isSpace := by
      have h2 := congrArg List.reverse
        (List.takeWhile_append_dropWhile isSpace (p.dropWhile isSpace).reverse)
      rw [List.reverse_append, List.reverse_reverse] at h2
      exact h2
    rw [TrimSpace_eq, List.append_assoc, h1, List.takeWhile_append_dropWhile]
  · intro c rest h
    rw [TrimSpace_eq] at h
    obtain ⟨t, ht⟩ := List.rdropWhile_prefix isSpace (l := p.dropWhile isSpace)
    rw [h] at ht
    have hne : p.dropWhile isSpace ≠ [] := by rw [← ht]; simp
    have := List.head_dropWhile_not isSpace p hne
    have hhead : (p.dropWhile isSpace).head hne = c := by
      simp only [← ht, List.cons_append, List.head_cons]
    rw [hhead] at this
    exact this
  · intro init c h
    rw [TrimSpace_eq] at h
    have hne : (p.dropWhile isSpace).rdropWhile isSpace ≠ [] := by rw [h]; simp
    have := List.rdropWhile_last_not isSpace (p.dropWhile isSpace) hne
    simp only [h, List.getLast_append_singleton] at this
    simpa using this

theorem TrimSpace_sublist (p : GoString) : (TrimSpace p).Sublist p := by
  rw [TrimSpace_eq]
  exact (List.rdropWhile_prefix isSpace (p.dropWhile isSpace)).sublist.trans (List.dropWhile_sublist isSpace)
theorem extractStringFromExpr_ok_iff (expr : Expression) (s : GoString) :
    extractStringFromExpr expr = .ok s ↔ IsPlainStringLiteral expr s := by
  constructor
  · intro h
    unfold extractStringFromExpr at h
    split at h
    · cases h; exact .template _
    · cases h; exact .literal _
    · cases h
  · intro h
    cases h <;> rfl

theorem extractStringFromExpr_error (expr : Expression)
    (h : ∀ s, ¬ IsPlainStringLiteral expr s) :
    extractStringFromExpr expr = .error .unableToExtract := by
  cases hres : extractStringFromExpr expr with
  | ok s => exact absurd ((extractStringFromExpr_ok_iff expr s).mp hres) (h s)
  | error e => cases e; rfl

theorem scanBlocks_declares (b : Block) (rest : List Block) (v : GoString)
    (h : DeclaresVersion b v) : scanBlocks (b :: rest) = { RequiredVersion := v } := by
  obtain ⟨ht, hl, expr, he, hlit⟩ := h
  simp only [scanBlocks, ht, hl, List.length_nil, and_self, if_true, he,
    (extractStringFromExpr_ok_iff expr v).mpr hlit]

theorem scanBlocks_skip (b : Block) (rest : List Block) (h : ∀ v, ¬ DeclaresVersion b v) :
    scanBlocks (b :: rest) = scanBlocks rest := by
  simp only [scanBlocks]
  split_ifs with hc
  · cases hlook : b.attributes.lookup "required_version".toList with
    | none => rfl
    | some expr =>
      have herr : extractStringFromExpr expr = .error .unableToExtract := by
        apply extractStringFromExpr_error
        intro s hs
        exact h s ⟨hc.1, List.length_eq_zero.mp hc.2, expr, hlook, hs⟩
      simp only [herr]
  · rfl

theorem scanBlocks_first (pre : List Block) (b : Block) (post : List Block) (v : GoString)
    (hpre : ∀ p ∈ pre, ∀ w, ¬ DeclaresVersion p w) (hb : DeclaresVersion b v) :
    scanBlocks (pre ++ b :: post) = { RequiredVersion := v } := by
  induction pre with
  | nil => exact scanBlocks_declares b post v hb
  | cons p ps ih =>
    rw [List.cons_append, scanBlocks_skip p _ (hpre p (List.mem_cons_self _ _))]
    exact ih (fun q hq => hpre q (List.mem_cons_of_mem _ hq))

theorem scanBlocks_none (blocks : List Block)
    (h : ∀ p ∈ blocks, ∀ w, ¬ DeclaresVersion p w) : scanBlocks blocks = {} := by
  induction blocks with
  | nil => rfl
  | cons p ps ih =>
    rw [scanBlocks_skip p _ (h p (List.mem_cons_self _ _))]
    exact ih (fun q hq => h q (List.mem_cons_of_mem _ hq))

theorem selectConfig_skip (fs : GoString → ParseHCLFileResult) (f : GoString)
    (rest : List GoString) (h : Skipped fs f) :
    selectConfig fs (f :: rest) = selectConfig fs rest := by
  unfold Skipped at h
  simp only [selectConfig]
  cases hp : parseTerraformFile fs f with
  | error e => rfl
  | ok config =>
    rw [hp] at h
    simp only [h, ne_eq, not_true_eq_false, if_false]

theorem selectConfig_append_skipped (fs : GoString → ParseHCLFileResult)
    (pre rest : List GoString) (h : ∀ g ∈ pre, Skipped fs g) :
    selectConfig fs (pre ++ rest) = selectConfig fs rest := by
  induction pre with
  | nil => rfl
  | cons p ps ih =>
    rw [List.cons_append, selectConfig_skip fs p _ (h p (List.mem_cons_self _ _))]
    exact ih (fun q hq => h q (List.mem_cons_of_mem _ hq))

theorem selectConfig_found (fs : GoString → ParseHCLFileResult) (f : GoString)
    (post : List GoString) (config : TerraformConfig)
    (hf : parseTerraformFile fs f = .ok config) (hne : config.RequiredVersion ≠ []) :
    selectConfig fs (f :: post) = ([foundLine f], some config) := by
  simp only [selectConfig, hf, hne, ne_eq, not_false_eq_true, if_true, foundLine]

theorem main_first_match (fs : GoString → ParseHCLFileResult) (pre : List GoString)
    (f : GoString) (post : List GoString) (config : TerraformConfig)
    (hpre : ∀ g ∈ pre, Skipped fs g)
    (hf : parseTerraformFile fs f = .ok config) (hne : config.RequiredVersion ≠ []) :
    main (some (pre ++ f :: post)) fs
      = .printed (foundLine f :: printSegments config.RequiredVersion) := by
  simp only [main, selectConfig_append_skipped fs pre _ hpre,
    selectConfig_found fs f post config hf hne, hne, if_false, List.singleton_append]

theorem main_all_skipped (fs : GoString → ParseHCLFileResult) (files : List GoString)
    (h : ∀ g ∈ files, Skipped fs g) : main (some files) fs = .printed [notFoundLine] := by
  have := selectConfig_append_skipped fs files [] h
  rw [List.append_nil] at this
  simp only [main, this, selectConfig, List.nil_append, notFoundLine]

theorem main_skip (fs : GoString → ParseHCLFileResult) (pre : List GoString) (f : GoString)
    (post : List GoString) (h : Skipped fs f) :
    main (some (pre ++ f :: post)) fs = main (some (pre ++ post)) fs := by
  have hsel : selectConfig fs (pre ++ f :: post) = selectConfig fs (pre ++ post) := by
    induction pre with
    | nil => exact selectConfig_skip fs f post h
    | cons p ps ih =>
      simp only [List.cons_append, selectConfig]
      cases parseTerraformFile fs p with
      | error e => exact ih
      | ok config =>
        simp only
        split_ifs
        · rfl
        · exact ih
  simp only [main, hsel]

theorem parseTerraformFile_congr (fs fs' : GoString → ParseHCLFileResult) (g : GoString)
    (h : fs' g = fs g) : parseTerraformFile fs' g = parseTerraformFile fs g := by
  simp only [parseTerraformFile, h]

theorem digit_facts {c : Char} (h : c ∈ decimalDigits) :
    digitVal c = some (c.toNat - 48) ∧ c.toNat - 48 ≤ 9 ∧ c ≠ '.' := by
  simp only [decimalDigits, List.mem_cons, List.mem_singleton, List.not_mem_nil, or_false] at h
  rcases h with h | h | h | h | h | h | h | h | h | h <;> subst h <;> decide

theorem digitChar_facts (d : Nat) (h : d < 10) :
    Nat.digitChar d ∈ decimalDigits ∧ (Nat.digitChar d).toNat - 48 = d := by
  interval_cases d <;> decide

theorem accumulate_ge (n : Nat) (r : GoString) : n ≤ accumulate n r := by
  induction r generalizing n with
  | nil => exact Nat.le_refl _
  | cons c cs ih =>
    have := ih (n * 10 + (c.toNat - 48))
    simp only [accumulate, List.foldl_cons] at this ⊢
    omega

theorem accumulate_eq (n : Nat) (r : GoString) :
    accumulate n r = n * 10 ^ r.length + decimalValue r := by
  induction r generalizing n with
  | nil => simp [accumulate, decimalValue]
  | cons c cs ih =>
    have h1 := ih (n * 10 + (c.toNat - 48))
    have h2 := ih (0 * 10 + (c.toNat - 48))
    simp only [accumulate, decimalValue, List.foldl_cons, List.length_cons] at h1 h2 ⊢
    rw [h1, h2, pow_succ]
    ring

theorem decimalValue_lt (r : GoString) (h : ∀ c ∈ r, c ∈ decimalDigits) :
    decimalValue r < 10 ^ r.length := by
  induction r using List.reverseRecOn with
  | nil => simp [decimalValue]
  | append_singleton cs c ih =>
    have hc := (digit_facts (h c (by simp))).2.1
    have := ih (fun d hd => h d (by simp [hd]))
    simp only [decimalValue, List.foldl_append, List.foldl_cons, List.foldl_nil,
      List.length_append, List.length_singleton, pow_succ] at this ⊢
    omega

theorem atoiFast_digits (r : GoString) (n : Nat) (h : ∀ c ∈ r, c ∈ decimalDigits) :
    atoiFast r n = some (accumulate n r) := by
  induction r generalizing n with
  | nil => rfl
  | cons c cs ih =>
    simp only [atoiFast, (digit_facts (h c (List.mem_cons_self _ _))).1]
    rw [ih _ (fun d hd => h d (List.mem_cons_of_mem _ hd))]
    rfl

theorem parseUintLoop_digits (r : GoString) (n : Nat) (h : ∀ c ∈ r, c ∈ decimalDigits)
    (hn : n ≤ maxUint64) :
    parseUintLoop r n
      = if accumulate n r ≤ maxUint64 then .value (accumulate n r) else .rangeError := by
  induction r generalizing n with
  | nil => simp [parseUintLoop, accumulate, hn]
  | cons c cs ih =>
    obtain ⟨hd, hd9, -⟩ := digit_facts (h c (List.mem_cons_self _ _))
    have hge := accumulate_ge (n * 10 + (c.toNat - 48)) cs
    have hstep : accumulate n (c :: cs) = accumulate (n * 10 + (c.toNat - 48)) cs := rfl
    have hmax : maxUint64 = 18446744073709551615 := by decide
    have hpow : (2 : Nat) ^ 64 = 18446744073709551616 := by decide
    rw [hstep]
    simp only [parseUintLoop, hd, hpow]
    rw [hmax] at hn ⊢
    by_cases h1 : n ≥ 18446744073709551615 / 10 + 1
    · have : ¬ accumulate (n * 10 + (c.toNat - 48)) cs ≤ 18446744073709551615 := by omega
      simp only [h1, this, if_true, if_false]
    · by_cases h2 : n * 10 + (c.toNat - 48) ≤ 18446744073709551615
      · have e1 : (n * 10 + (c.toNat - 48)) % 18446744073709551616
            = n * 10 + (c.toNat - 48) := by omega
        have e2 : n * 10 % 18446744073709551616 = n * 10 := by omega
        have h3 : ¬ (n * 10 + (c.toNat - 48) < n * 10 ∨
            n * 10 + (c.toNat - 48) > 18446744073709551615) := by omega
        simp only [h1, if_false, e2, e1, h3]
        rw [ih _ (fun d hd => h d (List.mem_cons_of_mem _ hd)) (by rw [hmax]; exact h2), hmax]
      · have e2 : n * 10 % 18446744073709551616 = n * 10 := by omega
        have h3 : (n * 10 + (c.toNat - 48)) % 18446744073709551616 < n * 10 ∨
            (n * 10 + (c.toNat - 48)) % 18446744073709551616 > 18446744073709551615 := by
          omega
        have : ¬ accumulate (n * 10 + (c.toNat - 48)) cs ≤ 18446744073709551615 := by omega
        simp only [h1, if_false, e2, h3, this, if_true]
/-- The result of `Atoi` on a run of digits: the number it denotes, capped at the largest
`int`, with a nil error exactly when nothing was capped. -/
theorem Atoi_digitRun (r : GoString) (h : IsDigitRun r) :
    Atoi r = (((min (decimalValue r) maxInt : Nat) : Int), decide (decimalValue r ≤ maxInt)) := by
  obtain ⟨hne, hd⟩ := h
  have hlen : 0 < r.length := List.length_pos.mpr hne
  have hacc : accumulate 0 r = decimalValue r := rfl
  have hmaxInt : maxInt = 9223372036854775807 := by decide
  have hmax : maxUint64 = 18446744073709551615 := by decide
  unfold Atoi
  by_cases hshort : r.length < 19
  · have hlt := decimalValue_lt r hd
    have hpow : 10 ^ r.length ≤ 10 ^ 18 := Nat.pow_le_pow_right (by norm_num) (by omega)
    have hle : decimalValue r ≤ maxInt := by
      rw [hmaxInt]
      have : (10 : Nat) ^ 18 = 1000000000000000000 := by norm_num
      omega
    simp only [hlen, hshort, and_self, if_true, atoiFast_digits r 0 hd, hacc,
      Nat.min_eq_left hle, hle, decide_True]
  · have hnz : ¬ r.length = 0 := by omega
    simp only [hlen, hshort, and_false, if_false, hnz,
      parseUintLoop_digits r 0 hd (Nat.zero_le _), hacc]
    have hsz : 2 ^ (intSize - 1) = 9223372036854775808 := by decide
    rw [hsz, hmax, hmaxInt]
    by_cases h1 : decimalValue r ≤ 18446744073709551615
    · simp only [h1, if_true]
      by_cases h2 : decimalValue r ≥ 9223372036854775808
      · have h3 : ¬ decimalValue r ≤ 9223372036854775807 := by omega
        simp only [h2, if_true, h3, decide_False, Prod.mk.injEq, and_true]
        rw [Nat.min_eq_right (by omega)]
      · have h3 : decimalValue r ≤ 9223372036854775807 := by omega
        simp only [h2, if_false, h3, decide_True, Prod.mk.injEq, and_true]
        rw [Nat.min_eq_left h3]
    · have h3 : ¬ decimalValue r ≤ 9223372036854775807 := by omega
      simp only [h1, if_false, h3, decide_False, Prod.mk.injEq, and_true]
      rw [Nat.min_eq_right (by omega)]

theorem decimalValue_append_singleton (ds : GoString) (c : Char) :
    decimalValue (ds ++ [c]) = decimalValue ds * 10 + (c.toNat - 48) := by
  simp [decimalValue]

theorem formatDigits_spec (fuel n : Nat) (acc : GoString) (h : n < fuel) :
    ∃ ds, formatDigits fuel n acc = ds ++ acc ∧ IsDigitRun ds ∧ decimalValue ds = n := by
  induction fuel generalizing n acc with
  | zero => omega
  | succ fuel ih =>
    simp only [formatDigits]
    split_ifs with hlt
    · obtain ⟨hm, hv⟩ := digitChar_facts n hlt
      refine ⟨[Nat.digitChar n], rfl, ⟨by simp, ?_⟩, ?_⟩
      · intro c hc
        rw [List.mem_singleton] at hc
        exact hc ▸ hm
      · simp [decimalValue, hv]
    · obtain ⟨ds, h1, ⟨-, h2⟩, h3⟩ := ih (n / 10) (Nat.digitChar (n % 10) :: acc) (by omega)
      obtain ⟨hm, hv⟩ := digitChar_facts (n % 10) (Nat.mod_lt _ (by norm_num))
      refine ⟨ds ++ [Nat.digitChar (n % 10)], by simp [h1], ⟨by simp, ?_⟩, ?_⟩
      · intro c hc
        rcases List.mem_append.mp hc with hc | hc
        · exact h2 c hc
        · rw [List.mem_singleton] at hc
          exact hc ▸ hm
      · rw [decimalValue_append_singleton, h3, hv]
        omega

theorem formatNat_spec (n : Nat) : IsDigitRun (formatNat n) ∧ decimalValue (formatNat n) = n := by
  obtain ⟨ds, h1, h2, h3⟩ := formatDigits_spec (n + 1) n [] (Nat.lt_succ_self n)
  rw [List.append_nil] at h1
  unfold formatNat
  rw [h1]
  exact ⟨h2, h3⟩

theorem formatInt_spec (n : Int) (h : 0 ≤ n) :
    IsDigitRun (formatInt n) ∧ (decimalValue (formatInt n) : Int) = n := by
  unfold formatInt
  rw [if_neg (by omega)]
  obtain ⟨h1, h2⟩ := formatNat_spec n.toNat
  exact ⟨h1, by rw [h2]; omega⟩

theorem IsDigitRun.no_dot {r : GoString} (h : IsDigitRun r) : '.' ∉ r := by
  intro hm
  exact (digit_facts (h.2 '.' hm)).2.2 rfl

theorem Split_three_runs (a b c : GoString) (ha : IsDigitRun a) (hb : IsDigitRun b)
    (hc : IsDigitRun c) : Split (a ++ '.' :: (b ++ '.' :: c)) '.' = [a, b, c] := by
  have h := Split_intercalate '.' [a, b, c] (by simp) (by
    intro p hp
    simp only [List.mem_cons, List.mem_singleton, List.not_mem_nil, or_false] at hp
    rcases hp with rfl | rfl | rfl
    · exact ha.no_dot
    · exact hb.no_dot
    · exact hc.no_dot)
  rw [intercalate_cons_cons, intercalate_cons_cons, intercalate_singleton] at h
  simpa using h

theorem parseSemver_three_runs (a b c : GoString) (ha : IsDigitRun a) (hb : IsDigitRun b)
    (hc : IsDigitRun c) :
    parseSemver (a ++ '.' :: (b ++ '.' :: c))
      = some ⟨(min (decimalValue a) maxInt : Nat), (min (decimalValue b) maxInt : Nat),
          (min (decimalValue c) maxInt : Nat)⟩ := by
  have hm : MatchString semverRegex (a ++ '.' :: (b ++ '.' :: c)) = true :=
    (MatchString_semverRegex_iff _).mpr ⟨a, b, c, ha, hb, hc, rfl⟩
  simp only [parseSemver, hm, if_true, Split_three_runs a b c ha hb hc, List.getD_cons_zero,
    List.getD_cons_succ, Atoi_digitRun a ha, Atoi_digitRun b hb, Atoi_digitRun c hc]

theorem numericComponents_three_runs (a b c : GoString) (ha : IsDigitRun a)
    (hb : IsDigitRun b) (hc : IsDigitRun c) :
    numericComponents (a ++ '.' :: (b ++ '.' :: c))
      = [decimalValue a, decimalValue b, decimalValue c] := by
  simp only [numericComponents, Split_three_runs a b c ha hb hc, List.map_cons, List.map_nil]
/-! ## The claims -/

/-- C1 (as stated, refuted): for the release set {1.0.0, 1.2.0, 1.2.9, 1.3.0,
2.0.0} the program returns all five releases, not `[1.3.0, 1.2.9, 1.2.0]`, and
for the constraint `">= 1.2.0, < 2.0.0"` `main` prints the two segments of the
constraint and no release. -/
theorem filter_example_counterexample :
    fetchTerraformReleases insertionSortLess (okPage exampleReleases)
      = .ok [⟨2, 0, 0⟩, ⟨1, 3, 0⟩, ⟨1, 2, 9⟩, ⟨1, 2, 0⟩, ⟨1, 0, 0⟩] ∧
    fetchTerraformReleases insertionSortLess (okPage exampleReleases)
      ≠ .ok [⟨1, 3, 0⟩, ⟨1, 2, 9⟩, ⟨1, 2, 0⟩] ∧
    main (some ["main.tf".toList]) (fun _ => exampleFile)
      = .printed ["Found required_version specification in main.tf".toList,
          ">= 1.2.0".toList, "< 2.0.0".toList] := by
  have h : fetchTerraformReleases insertionSortLess (okPage exampleReleases)
      = .ok [⟨2, 0, 0⟩, ⟨1, 3, 0⟩, ⟨1, 2, 9⟩, ⟨1, 2, 0⟩, ⟨1, 0, 0⟩] := by
    rw [okPage, fetch_ok]
    exact congrArg Except.ok (by decide)
  refine ⟨h, ?_, by decide⟩
  rw [h]
  intro hc
  have := Except.ok.inj hc
  exact absurd this (by decide)

/-- C1 (amended): for every page of links the program's result is a
rearrangement of all accepted releases, none of them removed by a constraint,
in descending version order; for the release set {1.0.0, 1.2.0, 1.2.9, 1.3.0,
2.0.0} it is `[2.0.0, 1.3.0, 1.2.9, 1.2.0, 1.0.0]`. -/
theorem fetchTerraformReleases_all_releases_descending
    (sortSlice : (Version → Version → Bool) → List Version → List Version)
    (hsort : SortsSlice sortSlice) (anchors : List (Option GoString)) :
    (∃ versions,
      fetchTerraformReleases sortSlice (some { statusCode := 200, document := some anchors })
        = .ok versions ∧
      versions.Perm (collectVersions anchors) ∧ List.Chain' lexGe versions) ∧
    fetchTerraformReleases sortSlice (okPage exampleReleases)
      = .ok [⟨2, 0, 0⟩, ⟨1, 3, 0⟩, ⟨1, 2, 9⟩, ⟨1, 2, 0⟩, ⟨1, 0, 0⟩] := by
  refine ⟨⟨_, fetch_ok sortSlice anchors, sortSlice_less_perm hsort _,
    sortSlice_less_chain hsort _⟩, ?_⟩
  rw [okPage, fetch_ok]
  congr 1
  apply descending_unique _ (sortSlice_less_chain hsort _)
  · simp only [List.chain'_cons, List.chain'_singleton, lexGe]
    decide
  · refine (sortSlice_less_perm hsort _).trans ?_
    have : collectVersions (exampleReleases.map some)
        = [⟨1, 0, 0⟩, ⟨1, 2, 0⟩, ⟨1, 2, 9⟩, ⟨1, 3, 0⟩, ⟨2, 0, 0⟩] := by decide
    rw [this]
    exact List.reverse_perm ([⟨2, 0, 0⟩, ⟨1, 3, 0⟩, ⟨1, 2, 9⟩, ⟨1, 2, 0⟩, ⟨1, 0, 0⟩] : List Version)

theorem fetchTerraformReleases_all_releases_descending_witness :
    SortsSlice insertionSortLess ∧
    (∃ versions,
      fetchTerraformReleases insertionSortLess
        (some { statusCode := 200, document := some [some "/terraform/0.11.9/".toList, none,
          some "/terraform/0.12.0/".toList] })
        = .ok versions ∧
      versions.Perm (collectVersions [some "/terraform/0.11.9/".toList, none,
          some "/terraform/0.12.0/".toList]) ∧ List.Chain' lexGe versions) ∧
    fetchTerraformReleases insertionSortLess (okPage exampleReleases)
      = .ok [⟨2, 0, 0⟩, ⟨1, 3, 0⟩, ⟨1, 2, 9⟩, ⟨1, 2, 0⟩, ⟨1, 0, 0⟩] :=
  ⟨insertionSortLess_sortsSlice,
    fetchTerraformReleases_all_releases_descending insertionSortLess
      insertionSortLess_sortsSlice _⟩

/-- C2: for every page of links, the list returned by `fetchTerraformReleases`
is in descending order: each element is greater than or equal to the next one,
comparing first by major, then by minor, then by patch. -/
theorem fetchTerraformReleases_descending
    (sortSlice : (Version → Version → Bool) → List Version → List Version)
    (hsort : SortsSlice sortSlice) (anchors : List (Option GoString)) :
    ∃ versions,
      fetchTerraformReleases sortSlice (some { statusCode := 200, document := some anchors })
        = .ok versions ∧
      List.Chain' lexGe versions ∧
      ∀ i (h : i + 1 < versions.length),
        lexGe (versions.get ⟨i, Nat.lt_of_succ_lt h⟩) (versions.get ⟨i + 1, h⟩) := by
  refine ⟨_, fetch_ok sortSlice anchors, sortSlice_less_chain hsort _, ?_⟩
  intro i h
  exact List.chain'_iff_get.mp (sortSlice_less_chain hsort _) i (by omega)

theorem fetchTerraformReleases_descending_witness :
    SortsSlice insertionSortLess ∧
    ∃ versions,
      fetchTerraformReleases insertionSortLess
        (some { statusCode := 200, document := some (exampleReleases.map some) })
        = .ok versions ∧
      List.Chain' lexGe versions ∧
      ∀ i (h : i + 1 < versions.length),
        lexGe (versions.get ⟨i, Nat.lt_of_succ_lt h⟩) (versions.get ⟨i + 1, h⟩) :=
  ⟨insertionSortLess_sortsSlice,
    fetchTerraformReleases_descending insertionSortLess insertionSortLess_sortsSlice _⟩

/-- C3: when no two accepted versions are equal as triples, the list returned
by `fetchTerraformReleases` is strictly descending and has no duplicates. -/
theorem fetchTerraformReleases_strictly_descending
    (sortSlice : (Version → Version → Bool) → List Version → List Version)
    (hsort : SortsSlice sortSlice) (anchors : List (Option GoString))
    (hdistinct : (collectVersions anchors).Nodup) :
    ∃ versions,
      fetchTerraformReleases sortSlice (some { statusCode := 200, document := some anchors })
        = .ok versions ∧
      List.Chain' lexGt versions ∧ versions.Nodup := by
  have hnodup : (sortSlice less (collectVersions anchors)).Nodup :=
    (sortSlice_less_perm hsort _).nodup_iff.mpr hdistinct
  refine ⟨_, fetch_ok sortSlice anchors, ?_, hnodup⟩
  have hpw : List.Pairwise lexGe (sortSlice less (collectVersions anchors)) :=
    descending_pairwise (sortSlice_less_chain hsort _)
  have hboth : List.Pairwise (fun a b => lexGe a b ∧ a ≠ b)
      (sortSlice less (collectVersions anchors)) := hpw.and hnodup
  exact (hboth.imp (fun {a b} h => lexGt_of_lexGe_of_ne a b h.1 h.2)).chain'

theorem fetchTerraformReleases_strictly_descending_witness :
    SortsSlice insertionSortLess ∧
    (collectVersions (exampleReleases.map some)).Nodup ∧
    ∃ versions,
      fetchTerraformReleases insertionSortLess
        (some { statusCode := 200, document := some (exampleReleases.map some) })
        = .ok versions ∧
      List.Chain' lexGt versions ∧ versions.Nodup :=
  ⟨insertionSortLess_sortsSlice, by decide,
    fetchTerraformReleases_strictly_descending insertionSortLess insertionSortLess_sortsSlice _
      (by decide)⟩

/-- C4: for every non-empty `required_version` string `s` that `main` selects,
the segments it prints are the pieces of `s` between its commas, in order,
each with its leading and trailing white space removed: there is one more
segment than commas, and no segment contains a comma or begins or ends with a
white-space character. -/
theorem main_prints_trimmed_segments (fs : GoString → ParseHCLFileResult)
    (pre : List GoString) (f : GoString) (post : List GoString) (s : GoString)
    (hs : s ≠ []) (hpre : ∀ g ∈ pre, Skipped fs g)
    (hf : parseTerraformFile fs f = .ok { RequiredVersion := s }) :
    ∃ pieces segments,
      main (some (pre ++ f :: post)) fs = .printed (foundLine f :: segments) ∧
      List.intercalate [','] pieces = s ∧
      (∀ p ∈ pieces, ',' ∉ p) ∧
      segments = pieces.map TrimSpace ∧
      (∀ p ∈ pieces, ∃ before after, (∀ c ∈ before, isSpace c = true) ∧
        (∀ c ∈ after, isSpace c = true) ∧ p = before ++ TrimSpace p ++ after) ∧
      segments.length = Count s ',' + 1 ∧
      (∀ seg ∈ segments, ',' ∉ seg ∧
        (∀ c rest, seg = c :: rest → isSpace c = false) ∧
        (∀ init c, seg = init ++ [c] → isSpace c = false)) := by
  obtain ⟨h1, h2, h3, -⟩ := Split_spec s ','
  refine ⟨Split s ',', (Split s ',').map TrimSpace, ?_, h1, h2, rfl, ?_, ?_, ?_⟩
  · exact main_first_match fs pre f post { RequiredVersion := s } hpre hf hs
  · intro p _
    exact (TrimSpace_spec p).1
  · rw [List.length_map, h3]
  · intro seg hseg
    obtain ⟨p, hp, rfl⟩ := List.mem_map.mp hseg
    exact ⟨fun hc => h2 p hp ((TrimSpace_sublist p).subset hc), (TrimSpace_spec p).2⟩

theorem main_prints_trimmed_segments_witness :
    ">= 1.2.0, < 2.0.0".toList ≠ [] ∧
    ∃ pieces segments,
      main (some ([] ++ "main.tf".toList :: [])) (fun _ => exampleFile)
        = .printed (foundLine "main.tf".toList :: segments) ∧
      List.intercalate [','] pieces = ">= 1.2.0, < 2.0.0".toList ∧
      (∀ p ∈ pieces, ',' ∉ p) ∧
      segments = pieces.map TrimSpace ∧
      (∀ p ∈ pieces, ∃ before after, (∀ c ∈ before, isSpace c = true) ∧
        (∀ c ∈ after, isSpace c = true) ∧ p = before ++ TrimSpace p ++ after) ∧
      segments.length = Count ">= 1.2.0, < 2.0.0".toList ',' + 1 ∧
      (∀ seg ∈ segments, ',' ∉ seg ∧
        (∀ c rest, seg = c :: rest → isSpace c = false) ∧
        (∀ init c, seg = init ++ [c] → isSpace c = false)) :=
  ⟨by decide,
    main_prints_trimmed_segments (fun _ => exampleFile) [] "main.tf".toList []
      ">= 1.2.0, < 2.0.0".toList (by decide) (by simp) rfl⟩

/-- C5: a version text yields a version exactly when it is three non-empty
runs of decimal digits separated by single dots; a link contributes an element
to the slice, and to the result of `fetchTerraformReleases`, exactly when its
version text is of that form; `"1.2"`, `""` and `"1.2.0-rc1"` are rejected; and
every accepted version text starts with a digit. -/
theorem version_text_accepted_iff (versions : List Version) (href : GoString)
    (hlink : HasPrefix href "/terraform/".toList = true) :
    (∀ text, (parseSemver text).isSome = true ↔ IsSemverText text) ∧
    (∀ text, parseSemver text = none ↔ ¬ IsSemverText text) ∧
    ((∃ v, eachAnchor versions (some href) = versions ++ [v]) ↔
      IsSemverText (versionText href)) ∧
    (¬ IsSemverText (versionText href) → eachAnchor versions (some href) = versions) ∧
    (∀ sortSlice, SortsSlice sortSlice →
      ((∃ v, fetchTerraformReleases sortSlice (okPage [href]) = .ok [v]) ↔
        IsSemverText (versionText href)) ∧
      (¬ IsSemverText (versionText href) →
        fetchTerraformReleases sortSlice (okPage [href]) = .ok [])) ∧
    parseSemver "1.2".toList = none ∧ parseSemver "".toList = none ∧
    parseSemver "1.2.0-rc1".toList = none ∧
    (∀ text, (parseSemver text).isSome = true →
      ∃ c rest, text = c :: rest ∧ c ∈ decimalDigits) := by
  have hcollect : collectVersions [some href] = eachAnchor [] (some href) := rfl
  have hsome : ∀ vs : List Version, IsSemverText (versionText href) →
      ∃ v, eachAnchor vs (some href) = vs ++ [v] := by
    intro vs hs
    obtain ⟨v, hv⟩ := Option.isSome_iff_exists.mp ((parseSemver_isSome_iff _).mpr hs)
    exact ⟨v, by rw [eachAnchor_link vs href hlink, hv]⟩
  have hnone : ∀ vs : List Version, ¬ IsSemverText (versionText href) →
      eachAnchor vs (some href) = vs := by
    intro vs hs
    rw [eachAnchor_link vs href hlink, (parseSemver_eq_none_iff _).mpr hs]
  refine ⟨parseSemver_isSome_iff, parseSemver_eq_none_iff, ⟨?_, hsome versions⟩,
    hnone versions, ?_, by decide, by decide, by decide, ?_⟩
  · rintro ⟨v, hv⟩
    by_contra hs
    rw [hnone versions hs] at hv
    have := congrArg List.length hv
    simp at this
  · intro sortSlice hsort
    have hp := sortSlice_less_perm hsort (collectVersions [some href])
    constructor
    · constructor
      · rintro ⟨v, hv⟩
        by_contra hs
        rw [okPage, List.map_singleton, fetch_ok, hcollect, hnone [] hs] at hv
        have h1 : sortSlice less [] = [v] := Except.ok.inj hv
        have h2 := (sortSlice_less_perm hsort []).length_eq
        rw [h1] at h2
        simp at h2
      · intro hs
        obtain ⟨v, hv⟩ := hsome [] hs
        rw [hcollect, hv, List.nil_append] at hp
        exact ⟨v, by rw [okPage, List.map_singleton, fetch_ok, hcollect, hv, List.nil_append,
          List.perm_singleton.mp hp]⟩
    · intro hs
      rw [hcollect, hnone [] hs] at hp
      rw [okPage, List.map_singleton, fetch_ok, hcollect, hnone [] hs, List.perm_nil.mp hp]
  · intro text ht
    exact ((parseSemver_isSome_iff text).mp ht).starts_with_digit

theorem version_text_accepted_iff_witness :
    HasPrefix "/terraform/1.14.0/".toList "/terraform/".toList = true ∧
    ((∃ v, eachAnchor [] (some "/terraform/1.14.0/".toList) = [] ++ [v]) ↔
      IsSemverText (versionText "/terraform/1.14.0/".toList)) ∧
    eachAnchor [] (some "/terraform/1.14.0/".toList) = [⟨1, 14, 0⟩] :=
  ⟨by decide,
    (version_text_accepted_iff [] "/terraform/1.14.0/".toList (by decide)).2.2.1,
    by decide⟩

/-- C6 (as stated, refuted): the version text `9223372036854775808.0.0` is
three runs of digits, but its first component does not fit an `int`: it is
parsed as 9223372036854775807, and formatting gives a text whose first numeric
component differs from the original one. -/
theorem parse_format_roundtrip_counterexample :
    IsSemverText "9223372036854775808.0.0".toList ∧
    parseSemver "9223372036854775808.0.0".toList = some ⟨9223372036854775807, 0, 0⟩ ∧
    formatVersion ⟨9223372036854775807, 0, 0⟩ = "9223372036854775807.0.0".toList ∧
    numericComponents "9223372036854775808.0.0".toList = [9223372036854775808, 0, 0] ∧
    numericComponents (formatVersion ⟨9223372036854775807, 0, 0⟩)
      = [9223372036854775807, 0, 0] ∧
    numericComponents (formatVersion ⟨9223372036854775807, 0, 0⟩)
      ≠ numericComponents "9223372036854775808.0.0".toList := by
  refine ⟨(MatchString_semverRegex_iff _).mp (by decide), by decide, by decide, by decide,
    by decide, by decide⟩

/-- C6 (amended): for every version text of three non-empty runs of decimal
digits separated by dots whose components are each at most the largest `int`
(2^63 - 1), whatever their number of digits, parsing it and formatting the
triple gives a text with the same three numeric components, which parses to
the same triple again. -/
theorem parse_format_roundtrip (text : GoString) (htext : IsSemverText text)
    (hbound : ∀ n ∈ numericComponents text, n ≤ maxInt) :
    ∃ v, parseSemver text = some v ∧
      numericComponents (formatVersion v) = numericComponents text ∧
      IsSemverText (formatVersion v) ∧
      parseSemver (formatVersion v) = some v := by
  obtain ⟨a, b, c, ha, hb, hc, rfl⟩ := htext
  rw [numericComponents_three_runs a b c ha hb hc] at hbound ⊢
  have hba : decimalValue a ≤ maxInt := hbound _ (by simp)
  have hbb : decimalValue b ≤ maxInt := hbound _ (by simp)
  have hbc : decimalValue c ≤ maxInt := hbound _ (by simp)
  rw [parseSemver_three_runs a b c ha hb hc, Nat.min_eq_left hba, Nat.min_eq_left hbb,
    Nat.min_eq_left hbc]
  obtain ⟨fa, va⟩ := formatInt_spec (decimalValue a : Int) (Int.natCast_nonneg _)
  obtain ⟨fb, vb⟩ := formatInt_spec (decimalValue b : Int) (Int.natCast_nonneg _)
  obtain ⟨fc, vc⟩ := formatInt_spec (decimalValue c : Int) (Int.natCast_nonneg _)
  have va2 : decimalValue (formatInt (decimalValue a : Int)) = decimalValue a := by omega
  have vb2 : decimalValue (formatInt (decimalValue b : Int)) = decimalValue b := by omega
  have vc2 : decimalValue (formatInt (decimalValue c : Int)) = decimalValue c := by omega
  refine ⟨_, rfl, ?_, ?_, ?_⟩
  · simp only [formatVersion]
    rw [numericComponents_three_runs _ _ _ fa fb fc, va2, vb2, vc2]
  · exact ⟨_, _, _, fa, fb, fc, rfl⟩
  · simp only [formatVersion]
    rw [parseSemver_three_runs _ _ _ fa fb fc, va2, vb2, vc2, Nat.min_eq_left hba,
      Nat.min_eq_left hbb, Nat.min_eq_left hbc]

theorem parse_format_roundtrip_witness :
    IsSemverText "0000000000000000000000012.5.0".toList ∧
    (∀ n ∈ numericComponents "0000000000000000000000012.5.0".toList, n ≤ maxInt) ∧
    ∃ v, parseSemver "0000000000000000000000012.5.0".toList = some v ∧
      numericComponents (formatVersion v)
        = numericComponents "0000000000000000000000012.5.0".toList ∧
      IsSemverText (formatVersion v) ∧
      parseSemver (formatVersion v) = some v :=
  ⟨(MatchString_semverRegex_iff _).mp (by decide), by decide,
    parse_format_roundtrip "0000000000000000000000012.5.0".toList
      ((MatchString_semverRegex_iff _).mp (by decide)) (by decide)⟩

/-- C7: the list returned by `fetchTerraformReleases` does not depend on the
order of the links in the page: two pages whose links are rearrangements of
each other give the same list, whatever (unstable) sort `sort.Slice` runs. -/
theorem fetchTerraformReleases_order_independent
    (sortSlice : (Version → Version → Bool) → List Version → List Version)
    (hsort : SortsSlice sortSlice) (anchors₁ anchors₂ : List (Option GoString))
    (hperm : anchors₁.Perm anchors₂) :
    fetchTerraformReleases sortSlice (some { statusCode := 200, document := some anchors₁ })
      = fetchTerraformReleases sortSlice
          (some { statusCode := 200, document := some anchors₂ }) ∧
    ∀ versions₁ versions₂ : List Version, versions₁.Perm versions₂ →
      sortSlice less versions₁ = sortSlice less versions₂ := by
  have hsorted : ∀ versions₁ versions₂ : List Version, versions₁.Perm versions₂ →
      sortSlice less versions₁ = sortSlice less versions₂ := by
    intro versions₁ versions₂ hp
    apply descending_unique _ (sortSlice_less_chain hsort _) (sortSlice_less_chain hsort _)
    exact (sortSlice_less_perm hsort _).trans (hp.trans (sortSlice_less_perm hsort _).symm)
  refine ⟨?_, hsorted⟩
  rw [fetch_ok, fetch_ok, hsorted _ _ (collectVersions_perm hperm)]

theorem fetchTerraformReleases_order_independent_witness :
    SortsSlice insertionSortLess ∧
    (exampleReleases.map some).Perm (exampleReleases.map some).reverse ∧
    fetchTerraformReleases insertionSortLess
        (some { statusCode := 200, document := some (exampleReleases.map some) })
      = fetchTerraformReleases insertionSortLess
          (some { statusCode := 200, document := some (exampleReleases.map some).reverse }) :=
  ⟨insertionSortLess_sortsSlice, (List.reverse_perm _).symm,
    (fetchTerraformReleases_order_independent insertionSortLess insertionSortLess_sortsSlice _ _
      (List.reverse_perm _).symm).1⟩

/-- C8: a file that parses and has no unlabelled `terraform` block whose
`required_version` is a string literal gives a config with an empty
`RequiredVersion` and no error; and `main` treats a file with an empty
`RequiredVersion` as if the file were not there: when every file is such a
file or fails to parse it prints only that no specification was found, as it
does for no file at all. -/
theorem empty_constraint_is_not_an_error (fs : GoString → ParseHCLFileResult)
    (filename : GoString) (blocks : List Block)
    (hparse : fs filename = .file (.syntaxBody blocks))
    (hnone : ∀ b ∈ blocks, ∀ v, ¬ DeclaresVersion b v) :
    parseTerraformFile fs filename = .ok { RequiredVersion := [] } ∧
    (∀ pre post, main (some (pre ++ filename :: post)) fs = main (some (pre ++ post)) fs) ∧
    (∀ g config, parseTerraformFile fs g = .ok config → config.RequiredVersion = [] →
      ∀ pre post, main (some (pre ++ g :: post)) fs = main (some (pre ++ post)) fs) ∧
    (∀ files, (∀ g ∈ files, Skipped fs g) →
      main (some files) fs = .printed [notFoundLine] ∧
      main (some files) fs = main (some []) fs) := by
  have hp : parseTerraformFile fs filename = .ok { RequiredVersion := [] } := by
    simp only [parseTerraformFile, hparse, scanBlocks_none blocks hnone]
  have hskip : ∀ g config, parseTerraformFile fs g = .ok config → config.RequiredVersion = [] →
      Skipped fs g := by
    intro g config hg hc
    simp only [Skipped, hg, hc]
  refine ⟨hp, ?_, ?_, ?_⟩
  · intro pre post
    exact main_skip fs pre filename post (hskip _ _ hp rfl)
  · intro g config hg hc pre post
    exact main_skip fs pre g post (hskip g config hg hc)
  · intro files hfiles
    rw [main_all_skipped fs files hfiles]
    exact ⟨rfl, rfl⟩

theorem empty_constraint_is_not_an_error_witness :
    (fun _ : GoString => ParseHCLFileResult.file (.syntaxBody
        [{ type := "variable".toList, labels := ["region".toList], attributes := [] }]))
      "vars.tf".toList
      = .file (.syntaxBody
        [{ type := "variable".toList, labels := ["region".toList], attributes := [] }]) ∧
    parseTerraformFile (fun _ : GoString => ParseHCLFileResult.file (.syntaxBody
        [{ type := "variable".toList, labels := ["region".toList], attributes := [] }]))
      "vars.tf".toList = .ok { RequiredVersion := [] } :=
  ⟨rfl, (empty_constraint_is_not_an_error _ "vars.tf".toList
    [{ type := "variable".toList, labels := ["region".toList], attributes := [] }] rfl
    (by
      intro b hb v hd
      rw [List.mem_singleton] at hb
      subst hb
      exact absurd hd.1 (by decide))).1⟩

/-- C9: `main` uses the constraint of the first file, in glob order, that
parses without error and has a non-empty `required_version`; files that fail
to parse are skipped; and neither the names nor the contents of the files
after the chosen one change the output. -/
theorem main_uses_first_file (fs fs' : GoString → ParseHCLFileResult)
    (pre : List GoString) (f : GoString) (post post' : List GoString)
    (config : TerraformConfig)
    (hpre : ∀ g ∈ pre, Skipped fs g)
    (hf : parseTerraformFile fs f = .ok config) (hne : config.RequiredVersion ≠ [])
    (hagree : ∀ g ∈ pre ++ [f], fs' g = fs g) :
    main (some (pre ++ f :: post)) fs
      = .printed (foundLine f :: printSegments config.RequiredVersion) ∧
    main (some (pre ++ f :: post')) fs' = main (some (pre ++ f :: post)) fs ∧
    (∀ g e before after, parseTerraformFile fs g = .error e →
      main (some (before ++ g :: after)) fs = main (some (before ++ after)) fs) := by
  have hmain := main_first_match fs pre f post config hpre hf hne
  refine ⟨hmain, ?_, ?_⟩
  · rw [hmain]
    apply main_first_match fs' pre f post' config
    · intro g hg
      have := hpre g hg
      unfold Skipped at this ⊢
      rw [parseTerraformFile_congr fs fs' g (hagree g (List.mem_append_left _ hg))]
      exact this
    · rw [parseTerraformFile_congr fs fs' f (hagree f (by simp))]
      exact hf
    · exact hne
  · intro g e before after hg
    apply main_skip
    simp only [Skipped, hg]

theorem main_uses_first_file_witness :
    main (some (["a.tf".toList] ++ "b.tf".toList :: ["c.tf".toList])) exampleFs
      = .printed (foundLine "b.tf".toList ::
          printSegments (TerraformConfig.mk ">= 1.2.0, < 2.0.0".toList).RequiredVersion) ∧
    main (some (["a.tf".toList] ++ "b.tf".toList :: []))
        (fun g => if g = "c.tf".toList then .diagErrors else exampleFs g)
      = main (some (["a.tf".toList] ++ "b.tf".toList :: ["c.tf".toList])) exampleFs :=
  ⟨(main_uses_first_file exampleFs
      (fun g => if g = "c.tf".toList then .diagErrors else exampleFs g)
      ["a.tf".toList] "b.tf".toList ["c.tf".toList] []
      { RequiredVersion := ">= 1.2.0, < 2.0.0".toList }
      (by
        intro g hg
        rw [List.mem_singleton] at hg
        subst hg
        exact True.intro)
      rfl (by decide)
      (by
        intro g hg
        have hne : g ≠ "c.tf".toList := by
          intro hc
          subst hc
          revert hg
          decide
        simp only [hne, if_false])).1,
   (main_uses_first_file exampleFs
      (fun g => if g = "c.tf".toList then .diagErrors else exampleFs g)
      ["a.tf".toList] "b.tf".toList ["c.tf".toList] []
      { RequiredVersion := ">= 1.2.0, < 2.0.0".toList }
      (by
        intro g hg
        rw [List.mem_singleton] at hg
        subst hg
        exact True.intro)
      rfl (by decide)
      (by
        intro g hg
        have hne : g ≠ "c.tf".toList := by
          intro hc
          subst hc
          revert hg
          decide
        simp only [hne, if_false])).2.1⟩

/-- C10: `parseTerraformFile` returns the `required_version` of the first
block, in block order, that has type `terraform`, no labels, and a plain string
literal as `required_version`; labelled `terraform` blocks and blocks whose
`required_version` is another expression are skipped without error; with no
such block the config is empty. -/
theorem parseTerraformFile_first_plain_required_version
    (fs : GoString → ParseHCLFileResult) (filename : GoString) (blocks : List Block)
    (hparse : fs filename = .file (.syntaxBody blocks)) :
    (∀ pre b post v, blocks = pre ++ b :: post →
      (∀ p ∈ pre, ∀ w, ¬ DeclaresVersion p w) → DeclaresVersion b v →
      parseTerraformFile fs filename = .ok { RequiredVersion := v }) ∧
    ((∀ p ∈ blocks, ∀ w, ¬ DeclaresVersion p w) →
      parseTerraformFile fs filename = .ok { RequiredVersion := [] }) ∧
    (∀ b rest, b.labels ≠ [] → scanBlocks (b :: rest) = scanBlocks rest) ∧
    (∀ b rest expr, b.attributes.lookup "required_version".toList = some expr →
      (∀ s, ¬ IsPlainStringLiteral expr s) → scanBlocks (b :: rest) = scanBlocks rest) ∧
    (∀ expr, (∀ s, ¬ IsPlainStringLiteral expr s) ↔
      extractStringFromExpr expr = .error .unableToExtract) ∧
    (∀ expr s, IsPlainStringLiteral expr s ↔ extractStringFromExpr expr = .ok s) := by
  refine ⟨?_, ?_, ?_, ?_, ?_, ?_⟩
  · intro pre b post v hb hpre hdecl
    simp only [parseTerraformFile, hparse, hb, scanBlocks_first pre b post v hpre hdecl]
  · intro h
    simp only [parseTerraformFile, hparse, scanBlocks_none blocks h]
  · intro b rest hl
    exact scanBlocks_skip b rest (fun v hd => hl hd.2.1)
  · intro b rest expr hlook hexpr
    apply scanBlocks_skip b rest
    rintro v ⟨-, -, e, he, hlit⟩
    rw [hlook] at he
    cases he
    exact hexpr v hlit
  · intro expr
    constructor
    · exact extractStringFromExpr_error expr
    · intro h s hs
      rw [(extractStringFromExpr_ok_iff expr s).mpr hs] at h
      cases h
  · intro expr s
    exact (extractStringFromExpr_ok_iff expr s).symm

theorem parseTerraformFile_first_plain_required_version_witness :
    parseTerraformFile
        (fun _ => .file (.syntaxBody ([labelledBlock, referenceBlock] ++ literalBlock :: [])))
        "main.tf".toList
      = .ok { RequiredVersion := "~> 1.5".toList } :=
  (parseTerraformFile_first_plain_required_version
      (fun _ => .file (.syntaxBody ([labelledBlock, referenceBlock] ++ literalBlock :: [])))
      "main.tf".toList _ rfl).1
    [labelledBlock, referenceBlock] literalBlock [] "~> 1.5".toList rfl
    (by
      intro p hp w hd
      rcases List.mem_cons.mp hp with h | h
      · subst h
        exact absurd hd.2.1 (by decide)
      · rw [List.mem_singleton] at h
        subst h
        obtain ⟨-, -, expr, he, hlit⟩ := hd
        have : expr = Expression.other "*hclsyntax.ScopeTraversalExpr".toList := by
          have h2 : referenceBlock.attributes.lookup "required_version".toList
              = some (Expression.other "*hclsyntax.ScopeTraversalExpr".toList) := rfl
          rw [h2] at he
          exact (Option.some.inj he).symm
        subst this
        cases hlit)
    ⟨rfl, rfl, _, rfl, .template _⟩
end TerraformVersionDetector
